import Mathlib

/-!
Verification of the `pokecache` timed cache (package pokecache).

The Go source is embedded shallowly:

* `time.Time` and `time.Duration` become `Int` (nanosecond counts; Go uses
  int64 nanoseconds, and no realistic run approaches the 292-year overflow
  bound, so unbounded `Int` with the same arithmetic is faithful).
* `time.Now()` becomes an explicit `now : Int` argument to every operation
  that calls it in the source.
* a Go byte slice `[]byte` can be `nil` or a (possibly empty) slice, so a
  stored value is `Option (List Nat)`: `none` is the nil slice and
  `some v` a non-nil slice with contents `v`.
* the Go map `map[string]CacheEntry` is realized as an association list
  with first-match lookup; map update removes every older binding of the
  key, so well-formed states have pairwise distinct keys (`Cache.WF`).
* `sync.RWMutex` only serializes access and has no sequential effect, so
  it is dropped; the claims under verification are sequential.
* `stopChan chan struct{}` is used solely through `close` (in `Stop`) and
  a receive in `reapLoop`, so its state is one bit, `stopClosed`.
  Closing an already-closed channel panics in Go with the runtime message
  "close of closed channel"; `Stop` therefore returns
  `Except String Cache`, with `Except.error` modelling the panic.
* the background goroutine `reapLoop` only ever calls `reapExpired`
  (exposed here directly) or returns; it needs no further model.
-/

/-- Byte values of a Go byte slice (contents of a non-nil `[]byte`). -/
abbrev Bytes := List Nat

/-- A Go `[]byte` variable: `none` is the nil slice, `some v` a non-nil slice. -/
abbrev GoBytes := Option Bytes

/-- `CacheEntry` from the source: a creation timestamp and the stored bytes. -/
structure CacheEntry where
  CreatedAt : Int
  Val : GoBytes
deriving DecidableEq, Repr

/-- The association-list realization of the Go map `map[string]CacheEntry`. -/
abbrev GoMap := List (String × CacheEntry)

/-- First-match lookup, the semantics of `c.cache[key]` on a Go map. -/
def findEntry : GoMap → String → Option CacheEntry
  | [], _ => none
  | (k, e) :: rest, key => if k = key then some e else findEntry rest key

/-- Remove every binding of `key`; helper realizing Go map update. -/
def eraseKey : GoMap → String → GoMap
  | [], _ => []
  | (k, e) :: rest, key =>
    if k = key then eraseKey rest key else (k, e) :: eraseKey rest key

/-- Go map assignment `m[key] = e`: the new binding replaces any old one. -/
def updateEntry (m : GoMap) (key : String) (e : CacheEntry) : GoMap :=
  (key, e) :: eraseKey m key

/-- The keys of a map state. -/
def mapKeys : GoMap → List String
  | [] => []
  | (k, _) :: rest => k :: mapKeys rest

/-- `Cache` from the source. The mutex is dropped (sequential semantics);
`stopChan` is reduced to the one bit `close` can change. -/
structure Cache where
  cache : GoMap
  interval : Int
  stopClosed : Bool
deriving DecidableEq, Repr

/-- Well-formed map state: pairwise distinct keys, as in any reachable
Go map state. -/
def Cache.WF (c : Cache) : Prop := (mapKeys c.cache).Nodup

instance (c : Cache) : Decidable c.WF := by
  unfold Cache.WF; infer_instance

/-- `NewCache` from the source: empty map, given interval, open stop channel.
The goroutine it spawns only runs `reapExpired`, modelled separately. -/
def NewCache (interval : Int) : Cache :=
  { cache := [], interval := interval, stopClosed := false }

/-- `Cache.Add` from the source: build an entry from `time.Now()` (the
explicit `now`) and the given value, and assign it into the map. -/
def Cache.Add (c : Cache) (now : Int) (key : String) (val : GoBytes) : Cache :=
  { c with cache := updateEntry c.cache key { CreatedAt := now, Val := val } }

/-- `Cache.Get` from the source: missing key gives `([]byte{}, false)`;
a present entry with nil `Val` gives `([]byte{}, true)`; otherwise the
stored slice with `true`. -/
def Cache.Get (c : Cache) (key : String) : Bytes × Bool :=
  match findEntry c.cache key with
  | none => ([], false)
  | some entry =>
    match entry.Val with
    | none => ([], true)
    | some v => (v, true)

/-- The body of the loop in `Cache.reapExpired`: delete each entry with
`now.Sub(entry.CreatedAt) > c.interval`, keep the rest. -/
def reapMap (interval now : Int) : GoMap → GoMap
  | [] => []
  | (k, e) :: rest =>
    if now - e.CreatedAt > interval then reapMap interval now rest
    else (k, e) :: reapMap interval now rest

/-- `Cache.reapExpired` from the source, with `time.Now()` explicit. -/
def Cache.reapExpired (c : Cache) (now : Int) : Cache :=
  { c with cache := reapMap c.interval now c.cache }

/-- `Cache.Stop` from the source: `close(c.stopChan)`. Closing an already
closed channel panics in Go; the panic is the `Except.error` case. -/
def Cache.Stop (c : Cache) : Except String Cache :=
  if c.stopClosed then Except.error "close of closed channel"
  else Except.ok { c with stopClosed := true }

/-- `Cache.Len` from the source: `len(c.cache)`. -/
def Cache.Len (c : Cache) : Nat := c.cache.length

/-- The copy loop of `Cache.GetCacheMap`: fold Go map assignments of every
entry of the source map into an accumulator that starts empty. -/
def copyFold : GoMap → GoMap → GoMap
  | [], acc => acc
  | kv :: rest, acc => copyFold rest (updateEntry acc kv.1 kv.2)

/-- `Cache.GetCacheMap` from the source: a fresh map filled by copying
every entry of `c.cache`. -/
def Cache.GetCacheMap (c : Cache) : GoMap := copyFold c.cache []

/-- Normalization of a stored value on the way out of `Get`, as the spec
words it: an absent/nil byte slice reads back as the empty sequence. -/
def normVal : GoBytes → Bytes
  | none => []
  | some v => v

/-!
Heap model for `GetCacheMap`. A Go map value is a reference into a heap of
map states; `make` allocates a fresh cell. `Cache.GetCacheMap` allocates a
new map and copies every entry into it, so the reference it returns is the
fresh cell, distinct from the reference the cache itself holds. Mutating
the returned map is a `Heap.write` through the returned reference.
-/

namespace HeapModel

/-- The heap: cell `r` holds the map state of reference `r`. -/
structure Heap where
  maps : List GoMap

/-- Dereference a Go map reference. -/
def Heap.read (h : Heap) (r : Nat) : GoMap := (h.maps[r]?).getD []

/-- Mutate the map behind a reference (any additions, removals or
replacements the caller performs on it). -/
def Heap.write (h : Heap) (r : Nat) (m : GoMap) : Heap := ⟨h.maps.set r m⟩

/-- A cache whose `cache` field is a reference into the heap. -/
structure CacheRef where
  ref : Nat
  interval : Int

/-- `Cache.Get` read through the cache's map reference. -/
def GetRef (h : Heap) (c : CacheRef) (key : String) : Bytes × Bool :=
  Cache.Get { cache := h.read c.ref, interval := c.interval, stopClosed := false } key

/-- `Cache.Len` read through the cache's map reference. -/
def LenRef (h : Heap) (c : CacheRef) : Nat := (h.read c.ref).length

/-- `Cache.GetCacheMap` in the heap model: allocate a fresh cell holding a
copy of the cache's map and return its reference. -/
def GetCacheMapRef (h : Heap) (c : CacheRef) : Heap × Nat :=
  (⟨h.maps ++ [copyFold (h.read c.ref) []]⟩, h.maps.length)

end HeapModel

/-- A concrete well-formed cache state used to instantiate theorems:
interval 50, an entry created at time 0 and one created at time 80. -/
def cacheEx : Cache :=
  { cache := [("k1", { CreatedAt := 0, Val := some [1] }),
              ("k2", { CreatedAt := 80, Val := some [2] })],
    interval := 50, stopClosed := false }

/-- A concrete cache whose single entry stores the nil slice. -/
def cacheNil : Cache :=
  { cache := [("n", { CreatedAt := 0, Val := none })],
    interval := 50, stopClosed := false }

/-- A one-cell heap for instantiating the heap-model theorems. -/
def heapEx : HeapModel.Heap :=
  { maps := [[("a", { CreatedAt := 0, Val := some [7] })]] }

/-- A cache reference pointing at the single cell of `heapEx`. -/
def cacheRefEx : HeapModel.CacheRef := { ref := 0, interval := 50 }

-- Basic lemmas about the map realization.

theorem findEntry_eraseKey_ne (m : GoMap) (k key : String) (h : k ≠ key) :
    findEntry (eraseKey m key) k = findEntry m k := by
  induction m with
  | nil => rfl
  | cons p rest ih =>
    obtain ⟨k0, e0⟩ := p
    by_cases h0 : k0 = key
    · subst h0
      have hne : ¬ (k0 = k) := fun hc => h (hc ▸ rfl)
      simp [eraseKey, findEntry, hne, ih]
    · simp [eraseKey, findEntry, h0, ih]

theorem findEntry_updateEntry (m : GoMap) (key k : String) (e : CacheEntry) :
    findEntry (updateEntry m key e) k =
      if key = k then some e else findEntry m k := by
  by_cases h : key = k
  · simp [updateEntry, findEntry, h]
  · simp [updateEntry, findEntry, h]
    exact findEntry_eraseKey_ne m k key (fun hc => h hc.symm)

theorem findEntry_of_not_mem (m : GoMap) (k : String)
    (h : k ∉ mapKeys m) : findEntry m k = none := by
  induction m with
  | nil => rfl
  | cons p rest ih =>
    obtain ⟨k0, e0⟩ := p
    simp [mapKeys] at h
    push_neg at h
    have hne : ¬ (k0 = k) := fun hc => h.1 (hc ▸ rfl)
    simp [findEntry, hne, ih h.2]

theorem mem_mapKeys_reapMap (interval now : Int) (m : GoMap) (k : String)
    (h : k ∈ mapKeys (reapMap interval now m)) : k ∈ mapKeys m := by
  induction m with
  | nil => simp [reapMap, mapKeys] at h
  | cons p rest ih =>
    obtain ⟨k0, e0⟩ := p
    by_cases hx : now - e0.CreatedAt > interval
    · simp [reapMap, hx] at h
      simp [mapKeys]
      exact Or.inr (ih h)
    · simp [reapMap, hx, mapKeys] at h
      simp [mapKeys]
      rcases h with h | h
      · exact Or.inl h
      · exact Or.inr (ih h)

theorem findEntry_reapMap (interval now : Int) (m : GoMap)
    (hm : (mapKeys m).Nodup) (k : String) :
    findEntry (reapMap interval now m) k =
      match findEntry m k with
      | none => none
      | some e => if now - e.CreatedAt > interval then none else some e := by
  induction m with
  | nil => rfl
  | cons p rest ih =>
    obtain ⟨k0, e0⟩ := p
    simp [mapKeys, List.nodup_cons] at hm
    by_cases hk : k0 = k
    · subst hk
      by_cases hx : now - e0.CreatedAt > interval
      · have hnot : k0 ∉ mapKeys (reapMap interval now rest) :=
          fun hc => hm.1 (mem_mapKeys_reapMap interval now rest k0 hc)
        simp [reapMap, hx, findEntry, findEntry_of_not_mem _ _ hnot]
      · simp [reapMap, hx, findEntry]
    · by_cases hx : now - e0.CreatedAt > interval
      · simp [reapMap, hx, findEntry, hk, ih hm.2]
      · simp [reapMap, hx, findEntry, hk, ih hm.2]

theorem reapMap_idem (interval now : Int) (m : GoMap) :
    reapMap interval now (reapMap interval now m) = reapMap interval now m := by
  induction m with
  | nil => rfl
  | cons p rest ih =>
    obtain ⟨k0, e0⟩ := p
    by_cases hx : now - e0.CreatedAt > interval
    · simp [reapMap, hx, ih]
    · simp [reapMap, hx, ih]

theorem mem_mapKeys_eraseKey (m : GoMap) (key k : String) :
    k ∈ mapKeys (eraseKey m key) ↔ (k ∈ mapKeys m ∧ k ≠ key) := by
  induction m with
  | nil => simp [eraseKey, mapKeys]
  | cons p rest ih =>
    obtain ⟨k0, e0⟩ := p
    by_cases h0 : k0 = key
    · subst h0
      have he : eraseKey ((k0, e0) :: rest) k0 = eraseKey rest k0 := by
        simp [eraseKey]
      rw [he, ih]
      simp only [mapKeys, List.mem_cons]
      constructor
      · rintro ⟨h1, h2⟩
        exact ⟨Or.inr h1, h2⟩
      · rintro ⟨h1 | h1, h2⟩
        · exact absurd h1 h2
        · exact ⟨h1, h2⟩
    · simp [eraseKey, h0, mapKeys, ih]
      constructor
      · rintro (h | ⟨h1, h2⟩)
        · exact ⟨Or.inl h, h ▸ h0⟩
        · exact ⟨Or.inr h1, h2⟩
      · rintro ⟨h | h, h2⟩
        · exact Or.inl h
        · exact Or.inr ⟨h, h2⟩

theorem nodup_mapKeys_eraseKey (m : GoMap) (key : String)
    (hm : (mapKeys m).Nodup) : (mapKeys (eraseKey m key)).Nodup := by
  induction m with
  | nil => simp [eraseKey, mapKeys]
  | cons p rest ih =>
    obtain ⟨k0, e0⟩ := p
    simp [mapKeys, List.nodup_cons] at hm
    by_cases h0 : k0 = key
    · simpa [eraseKey, h0] using ih hm.2
    · simp [eraseKey, h0, mapKeys, List.nodup_cons]
      refine ⟨fun hc => hm.1 ((mem_mapKeys_eraseKey rest key k0).mp hc).1, ih hm.2⟩

theorem WF_Add (c : Cache) (now : Int) (k : String) (v : GoBytes)
    (h : c.WF) : (c.Add now k v).WF := by
  unfold Cache.WF at h ⊢
  simp [Cache.Add, updateEntry, mapKeys, List.nodup_cons]
  exact ⟨fun hc => ((mem_mapKeys_eraseKey c.cache k k).mp hc).2 rfl,
    nodup_mapKeys_eraseKey c.cache k h⟩

theorem findEntry_copyFold (src : GoMap) (hs : (mapKeys src).Nodup)
    (acc : GoMap) (k : String) :
    findEntry (copyFold src acc) k =
      if k ∈ mapKeys src then findEntry src k else findEntry acc k := by
  induction src generalizing acc with
  | nil => simp [copyFold, mapKeys]
  | cons p rest ih =>
    obtain ⟨k0, e0⟩ := p
    simp [mapKeys, List.nodup_cons] at hs
    rw [show copyFold ((k0, e0) :: rest) acc
        = copyFold rest (updateEntry acc k0 e0) from rfl]
    rw [ih hs.2]
    by_cases hmem : k ∈ mapKeys rest
    · have hne : ¬ (k0 = k) := fun hc => hs.1 (hc ▸ hmem)
      simp [hmem, mapKeys, findEntry, hne]
    · rw [findEntry_updateEntry]
      by_cases hk : k0 = k
      · subst hk
        simp [hmem, mapKeys, findEntry]
      · have hne2 : ¬ (k = k0) := fun hc => hk hc.symm
        simp [hmem, mapKeys, findEntry, hk, hne2]

theorem findEntry_GetCacheMap (c : Cache) (h : c.WF) (k : String) :
    findEntry c.GetCacheMap k = findEntry c.cache k := by
  unfold Cache.GetCacheMap
  rw [findEntry_copyFold c.cache h []]
  by_cases hk : k ∈ mapKeys c.cache
  · simp [hk]
  · simp [hk, findEntry, findEntry_of_not_mem c.cache k hk]

theorem get_add_self (c : Cache) (now : Int) (k : String) (v : GoBytes) :
    (c.Add now k v).Get k = (normVal v, true) := by
  unfold Cache.Get Cache.Add
  simp only [findEntry_updateEntry, if_pos rfl]
  cases v <;> simp [normVal]

theorem findEntry_add_self (c : Cache) (now : Int) (k : String) (v : GoBytes) :
    findEntry (c.Add now k v).cache k =
      some { CreatedAt := now, Val := v } := by
  simp [Cache.Add, findEntry_updateEntry]

theorem get_of_findEntry (c : Cache) (k : String) (e : CacheEntry)
    (h : findEntry c.cache k = some e) : c.Get k = (normVal e.Val, true) := by
  unfold Cache.Get
  rw [h]
  cases hv : e.Val <;> simp [normVal, hv]

theorem get_of_absent (c : Cache) (k : String)
    (h : findEntry c.cache k = none) : c.Get k = ([], false) := by
  unfold Cache.Get
  rw [h]

namespace HeapModel

theorem read_write_ne (h : Heap) (r r' : Nat) (m : GoMap) (hne : r ≠ r') :
    (h.write r m).read r' = h.read r' := by
  unfold Heap.write Heap.read
  simp [List.getElem?_set_ne hne]

theorem read_append_lt (h : Heap) (m : GoMap) (r : Nat)
    (hr : r < h.maps.length) :
    (Heap.mk (h.maps ++ [m])).read r = h.read r := by
  unfold Heap.read
  simp [List.getElem?_append_left hr]

end HeapModel

-- Claim theorems.

/-- C1: for every key `k` and value `v`, `Add(k, v)` immediately followed by
`Get(k)` (no reap sweep in between) returns `v` normalized — the empty
sequence when `v` is the nil slice — together with `found = true`. -/
theorem add_then_get_returns_value (c : Cache) (now : Int) (k : String)
    (v : GoBytes) : (c.Add now k v).Get k = (normVal v, true) :=
  get_add_self c now k v

/-- C2: a single `reapExpired` sweep at time `now` removes exactly the
entries whose age `now - CreatedAt` strictly exceeds the interval; every
entry whose age is at most the interval survives with its value and
timestamp unchanged. -/
theorem reapExpired_removes_exactly_expired (c : Cache) (now : Int)
    (h : c.WF) (k : String) :
    findEntry (c.reapExpired now).cache k =
      match findEntry c.cache k with
      | none => none
      | some e => if now - e.CreatedAt > c.interval then none else some e :=
  findEntry_reapMap c.interval now c.cache h k

/-- Witness for C2, the spec's own scenario: with interval 50, the entry
created at 0 is removed by a sweep at 100 (age 100 > 50) and the entry
created at 80 survives unchanged (age 20 ≤ 50). -/
theorem reapExpired_removes_exactly_expired_witness :
    cacheEx.WF ∧
      findEntry (cacheEx.reapExpired 100).cache "k1" = none ∧
      findEntry (cacheEx.reapExpired 100).cache "k2" =
        some { CreatedAt := 80, Val := some [2] } :=
  ⟨by decide,
   (reapExpired_removes_exactly_expired cacheEx 100 (by decide) "k1").trans
     (by decide),
   (reapExpired_removes_exactly_expired cacheEx 100 (by decide) "k2").trans
     (by decide)⟩

/-- C3 counterexample: on a fresh cache the first `Stop` succeeds and a
second `Stop` reaches Go's close-of-closed-channel panic, so the second
invocation does crash, refuting the claim as stated. -/
theorem second_stop_crashes :
    (NewCache 5).Stop.bind Cache.Stop =
      Except.error "close of closed channel" := rfl

/-- C3 amended: a second `Stop` is a deterministic, detectable misuse error
(Go's close-of-closed-channel panic), never undefined behavior — but it is
a crash, not a no-op: after one successful `Stop`, a second `Stop` panics. -/
theorem double_stop_deterministic_panic (c : Cache)
    (h : c.stopClosed = false) :
    c.Stop = Except.ok { c with stopClosed := true } ∧
      ({ c with stopClosed := true } : Cache).Stop =
        Except.error "close of closed channel" := by
  refine ⟨?_, ?_⟩
  · simp [Cache.Stop, h]
  · simp [Cache.Stop]

/-- Witness for the amended C3 on a fresh cache with interval 5. -/
theorem double_stop_deterministic_panic_witness :
    (NewCache 5).stopClosed = false ∧
      ((NewCache 5).Stop = Except.ok { NewCache 5 with stopClosed := true } ∧
        ({ NewCache 5 with stopClosed := true } : Cache).Stop =
          Except.error "close of closed channel") :=
  ⟨rfl, double_stop_deterministic_panic (NewCache 5) rfl⟩

/-- C4: `Get` does not enforce expiry: a present key is returned with
`found = true` whatever its age — including ages a sweep at some `now`
would already remove — and an absent key gives `([], false)`. -/
theorem get_ignores_expiry (c : Cache) (k : String) :
    (∀ e : CacheEntry, findEntry c.cache k = some e →
      c.Get k = (normVal e.Val, true)) ∧
      (∀ (e : CacheEntry) (now : Int), findEntry c.cache k = some e →
        now - e.CreatedAt > c.interval → c.Get k = (normVal e.Val, true)) ∧
      (findEntry c.cache k = none → c.Get k = ([], false)) :=
  ⟨fun e he => get_of_findEntry c k e he,
   fun e _ he _ => get_of_findEntry c k e he,
   fun he => get_of_absent c k he⟩

/-- Witness for C4: in `cacheEx` the key `k1` is already expired from the
viewpoint of time 100 (age 100 > interval 50) yet `Get` still returns its
value with `true`; an absent key gives `([], false)`. -/
theorem get_ignores_expiry_witness :
    cacheEx.Get "k1" = (normVal (some [1]), true) ∧
      cacheEx.Get "zz" = ([], false) :=
  ⟨(get_ignores_expiry cacheEx "k1").2.1 { CreatedAt := 0, Val := some [1] }
     100 (by decide) (by decide),
   (get_ignores_expiry cacheEx "zz").2.2 (by decide)⟩

/-- C5: overwrite is last-writer-wins: after `Add(k, v1)` then `Add(k, v2)`
(no reap in between), `Get(k)` returns `v2` normalized with `true` — never
`v1` — and the stored entry holds `v2` with the timestamp captured at the
second `Add`. -/
theorem overwrite_last_writer_wins (c : Cache) (t1 t2 : Int) (k : String)
    (v1 v2 : GoBytes) :
    ((c.Add t1 k v1).Add t2 k v2).Get k = (normVal v2, true) ∧
      findEntry ((c.Add t1 k v1).Add t2 k v2).cache k =
        some { CreatedAt := t2, Val := v2 } :=
  ⟨get_add_self (c.Add t1 k v1) t2 k v2,
   findEntry_add_self (c.Add t1 k v1) t2 k v2⟩

/-- C6: `Get` never pairs `found = true` with a nil value: immediately
after `Add(k, nil)` the lookup returns the empty sequence of length 0 with
`true`, and in general any present entry whose stored `Val` is the nil
slice reads back as `([], true)`. -/
theorem nil_value_normalized_to_empty (c : Cache) (now : Int) (k : String) :
    (c.Add now k none).Get k = ([], true) ∧
      (∀ e : CacheEntry, findEntry c.cache k = some e → e.Val = none →
        c.Get k = ([], true)) :=
  ⟨get_add_self c now k none,
   fun e he hv => by
     have h2 := get_of_findEntry c k e he
     rw [hv] at h2
     simpa [normVal] using h2⟩

/-- Witness for C6: adding the nil slice and reading it back, and reading
back a stored nil slice already present in `cacheNil`. -/
theorem nil_value_normalized_to_empty_witness :
    (cacheNil.Add 3 "m" none).Get "m" = ([], true) ∧
      cacheNil.Get "n" = ([], true) :=
  ⟨(nil_value_normalized_to_empty cacheNil 3 "m").1,
   (nil_value_normalized_to_empty cacheNil 0 "n").2
     { CreatedAt := 0, Val := none } (by decide) rfl⟩

/-- C7: `reapExpired` is idempotent at a fixed observation time: a second
sweep with the same `now` and no inserts in between removes nothing and
leaves the same surviving entry set. -/
theorem reapExpired_idempotent (c : Cache) (now : Int) :
    (c.reapExpired now).reapExpired now = c.reapExpired now := by
  unfold Cache.reapExpired
  simp [reapMap_idem]

/-- C8: `Stop` leaves the entry map untouched: after a successful `Stop`
the map, the interval, every `Get` result, `Len`, `GetCacheMap`, and the
map effects of subsequent `Add` and `reapExpired` are exactly as before;
only the stop flag changes, so only future reaping ceases. -/
theorem stop_preserves_entries (c c' : Cache)
    (h : c.Stop = Except.ok c') :
    c'.cache = c.cache ∧ c'.interval = c.interval ∧
      (∀ k, c'.Get k = c.Get k) ∧ c'.Len = c.Len ∧
      c'.GetCacheMap = c.GetCacheMap ∧
      (∀ now k v, (c'.Add now k v).cache = (c.Add now k v).cache) ∧
      (∀ now, (c'.reapExpired now).cache = (c.reapExpired now).cache) := by
  unfold Cache.Stop at h
  by_cases hs : c.stopClosed
  · rw [if_pos hs] at h
    exact absurd h (by simp)
  · rw [if_neg hs] at h
    injection h with h2
    subst h2
    exact ⟨rfl, rfl, fun k => rfl, rfl, rfl, fun now k v => rfl, fun now => rfl⟩

/-- Witness for C8 on a fresh cache with interval 5. -/
theorem stop_preserves_entries_witness :
    ({ NewCache 5 with stopClosed := true } : Cache).cache =
        (NewCache 5).cache ∧
      ({ NewCache 5 with stopClosed := true } : Cache).Get "a" =
        (NewCache 5).Get "a" ∧
      ({ NewCache 5 with stopClosed := true } : Cache).Len = (NewCache 5).Len :=
  ⟨(stop_preserves_entries (NewCache 5)
      { NewCache 5 with stopClosed := true } rfl).1,
   (stop_preserves_entries (NewCache 5)
      { NewCache 5 with stopClosed := true } rfl).2.2.1 "a",
   (stop_preserves_entries (NewCache 5)
      { NewCache 5 with stopClosed := true } rfl).2.2.2.1⟩

namespace HeapModel

/-- C9: `GetCacheMap` returns an independent copy: the reference it hands
back is distinct from the cache's own map reference, and writing any
mutated map `m'` through the returned reference leaves the cache's map —
hence every subsequent `Get`, `Len`, and the contents a subsequent
`GetCacheMap` copies — unchanged. -/
theorem getCacheMap_returns_independent_copy (h : Heap) (c : CacheRef)
    (hr : c.ref < h.maps.length) :
    (GetCacheMapRef h c).2 ≠ c.ref ∧
      (∀ m' : GoMap,
        ((GetCacheMapRef h c).1.write (GetCacheMapRef h c).2 m').read c.ref
          = h.read c.ref) ∧
      (∀ (m' : GoMap) (k : String),
        GetRef ((GetCacheMapRef h c).1.write (GetCacheMapRef h c).2 m') c k
          = GetRef h c k) ∧
      (∀ m' : GoMap,
        LenRef ((GetCacheMapRef h c).1.write (GetCacheMapRef h c).2 m') c
          = LenRef h c) ∧
      (∀ m' : GoMap,
        copyFold
            (((GetCacheMapRef h c).1.write (GetCacheMapRef h c).2 m').read
              c.ref) []
          = copyFold (h.read c.ref) []) := by
  have hne : (GetCacheMapRef h c).2 ≠ c.ref := Nat.ne_of_gt hr
  have hread : ∀ m' : GoMap,
      ((GetCacheMapRef h c).1.write (GetCacheMapRef h c).2 m').read c.ref
        = h.read c.ref := by
    intro m'
    rw [show (GetCacheMapRef h c).1
        = Heap.mk (h.maps ++ [copyFold (h.read c.ref) []]) from rfl]
    rw [show (GetCacheMapRef h c).2 = h.maps.length from rfl]
    rw [read_write_ne _ _ _ _ (Nat.ne_of_gt hr)]
    exact read_append_lt h _ c.ref hr
  refine ⟨hne, hread, fun m' k => ?_, fun m' => ?_, fun m' => ?_⟩
  · unfold GetRef
    rw [hread m']
  · unfold LenRef
    rw [hread m']
  · rw [hread m']

/-- Witness for C9: clearing the copied map returned on the one-cell heap
`heapEx` does not change what the cache reference reads. -/
theorem getCacheMap_returns_independent_copy_witness :
    (GetCacheMapRef heapEx cacheRefEx).2 ≠ cacheRefEx.ref ∧
      GetRef ((GetCacheMapRef heapEx cacheRefEx).1.write
          (GetCacheMapRef heapEx cacheRefEx).2 []) cacheRefEx "a"
        = GetRef heapEx cacheRefEx "a" :=
  ⟨(getCacheMap_returns_independent_copy heapEx cacheRefEx (by decide)).1,
   (getCacheMap_returns_independent_copy heapEx cacheRefEx
      (by decide)).2.2.1 [] "a"⟩

end HeapModel

/-- C10: `Add` stores the value exactly as passed: after `Add(k, nil)` the
stored entry's `Val` is the nil slice (not an empty one), `GetCacheMap`
exposes that un-normalized nil `Val`, and only `Get` normalizes it to the
empty sequence. -/
theorem add_stores_value_unnormalized (c : Cache) (now : Int) (k : String)
    (h : c.WF) :
    findEntry (c.Add now k none).cache k =
        some { CreatedAt := now, Val := none } ∧
      findEntry (c.Add now k none).GetCacheMap k =
        some { CreatedAt := now, Val := none } ∧
      (c.Add now k none).Get k = ([], true) := by
  refine ⟨findEntry_add_self c now k none, ?_, get_add_self c now k none⟩
  rw [findEntry_GetCacheMap (c.Add now k none) (WF_Add c now k none h) k]
  exact findEntry_add_self c now k none

/-- Witness for C10 on the concrete cache `cacheEx`. -/
theorem add_stores_value_unnormalized_witness :
    findEntry (cacheEx.Add 7 "m" none).cache "m" =
        some { CreatedAt := 7, Val := none } ∧
      findEntry (cacheEx.Add 7 "m" none).GetCacheMap "m" =
        some { CreatedAt := 7, Val := none } :=
  ⟨(add_stores_value_unnormalized cacheEx 7 "m" (by decide)).1,
   (add_stores_value_unnormalized cacheEx 7 "m" (by decide)).2.1⟩
